import Mathlib

/-!
# Sushi Kanji Quiz: a shallow embedding of `main.go`

The game logic of `main.go` (`NewGame`, `Game.startNewRound`, `Game.Update`) is
translated into pure Lean functions on an explicit state.

Modelling decisions:

* `*rand.Rand` is a stream of raw draws together with a cursor; `Intn n` reads the
  draw under the cursor, reduces it modulo `n` and advances the cursor.  Every
  sequence of results that a generator can return is produced by some stream.
  `Intn 0` panics, as in Go.
* The unbounded loop `for { ... }` of `startNewRound` is run with a fuel bound on
  the number of iterations; running out of fuel is reported as `Fault.fuel`,
  a Go run-time panic as `Fault.panic`.
* Go `int` is the 64-bit two's-complement integer; `g.score++` wraps.
* The font fields and `Draw`/`Layout` are rendering only, they are never read by
  `Update` or `startNewRound`, and are left out.  The `fmt.Printf` debug line of
  `startNewRound` writes to standard output and changes no state.
-/

namespace SushiQuiz

/-! ## Data model -/

/-- A sushi item with its kanji and English name (`type SushiItem struct`). -/
structure SushiItem where
  Kanji : String
  English : String
deriving DecidableEq, Repr

/-- Ways in which a run fails to produce a result: the fuel bound was reached
(the Go loop is still spinning), or the Go run time panicked. -/
inductive Fault where
  | fuel
  | panic
deriving DecidableEq, Repr

/-- The random source: a stream of raw draws and the position of the next one. -/
structure Rand where
  draws : Nat → Nat
  pos : Nat

/-- `r.Intn(n)`: a value in `[0, n)`; panics when `n <= 0`. -/
def Rand.Intn (r : Rand) (n : Nat) : Except Fault (Nat × Rand) :=
  if n = 0 then .error .panic
  else .ok (r.draws r.pos % n, { r with pos := r.pos + 1 })

/-- The game state (`type Game struct`), without the font fields. -/
structure Game where
  sushiItems : List SushiItem
  currentItem : SushiItem
  options : List String
  correctIndex : Int
  score : Int
  bestScore : Int
  gameOver : Bool
  rand : Rand

/-- Width of the Go `int` type on 64-bit targets. -/
def intBits : Nat := 64

/-- Largest `int`. -/
def maxInt : Int := 2 ^ (intBits - 1) - 1

/-- Smallest `int`. -/
def minInt : Int := -(2 ^ (intBits - 1))

/-- Two's-complement wrap-around of an integer result into the `int` range. -/
def wrapInt (x : Int) : Int :=
  (x + 2 ^ (intBits - 1)) % 2 ^ intBits - 2 ^ (intBits - 1)

/-- The vocabulary built by `NewGame`. -/
def vocabulary : List SushiItem :=
  [ ⟨"鮪", "Tuna"⟩,
    ⟨"鮭", "Salmon"⟩,
    ⟨"鰤", "Yellowtail"⟩,
    ⟨"鯛", "Sea Bream"⟩,
    ⟨"鰹", "Bonito"⟩,
    ⟨"鱈", "Cod"⟩,
    ⟨"鰻", "Eel"⟩,
    ⟨"鱚", "Japanese Whiting"⟩,
    ⟨"鯖", "Mackerel"⟩,
    ⟨"鯵", "Horse Mackerel"⟩,
    ⟨"鮟鱇", "Anglerfish"⟩,
    ⟨"鱧", "Pike Conger"⟩,
    ⟨"鱸", "Sea Bass"⟩,
    ⟨"鰆", "Spanish Mackerel"⟩,
    ⟨"鰈", "Flounder"⟩,
    ⟨"鰺", "Amberjack"⟩,
    ⟨"鱒", "Trout"⟩,
    ⟨"鰯", "Sardine"⟩ ]

/-! ## `startNewRound` -/

/-- The inner loop of `startNewRound`:
`for { randomIndex = g.rand.Intn(len(g.sushiItems)); if !usedIndices[randomIndex] { break } }`.
`n` is `len(g.sushiItems)`; the map `usedIndices` is the list of its keys. -/
def drawUnused (n : Nat) (usedIndices : List Nat) : Nat → Rand → Except Fault (Nat × Rand)
  | 0, _ => .error .fuel
  | fuel + 1, r =>
    match r.Intn n with
    | .error e => .error e
    | .ok (randomIndex, r') =>
      if randomIndex ∈ usedIndices then drawUnused n usedIndices fuel r'
      else .ok (randomIndex, r')

/-- The variables the outer loop of `startNewRound` changes. -/
structure FillState where
  options : List String
  usedIndices : List Nat
  rand : Rand

/-- One iteration of `for i := 0; i < 3; i++ { ... }` in `startNewRound`. -/
def fillSlot (sushiItems : List SushiItem) (correctIndex fuel : Nat) (st : FillState)
    (i : Nat) : Except Fault FillState :=
  if i = correctIndex then .ok st
  else
    match drawUnused sushiItems.length st.usedIndices fuel st.rand with
    | .error e => .error e
    | .ok (randomIndex, r') =>
      match sushiItems[randomIndex]? with
      | none => .error .panic
      | some it =>
        .ok { options := st.options.set i it.English,
              usedIndices := randomIndex :: st.usedIndices,
              rand := r' }

/-- The outer loop of `startNewRound` over the slots still to visit. -/
def fillOptions (sushiItems : List SushiItem) (correctIndex fuel : Nat) :
    FillState → List Nat → Except Fault FillState
  | st, [] => .ok st
  | st, i :: rest =>
    match fillSlot sushiItems correctIndex fuel st i with
    | .error e => .error e
    | .ok st' => fillOptions sushiItems correctIndex fuel st' rest

/-- `func (g *Game) startNewRound()`. -/
def startNewRound (fuel : Nat) (g : Game) : Except Fault Game :=
  match g.rand.Intn g.sushiItems.length with
  | .error e => .error e
  | .ok (itemIndex, r1) =>
    match g.sushiItems[itemIndex]? with
    | none => .error .panic
    | some item =>
      match r1.Intn 3 with
      | .error e => .error e
      | .ok (correctIndex, r2) =>
        match fillOptions g.sushiItems correctIndex fuel
            { options := (List.replicate 3 "").set correctIndex item.English,
              usedIndices := [itemIndex],
              rand := r2 } [0, 1, 2] with
        | .error e => .error e
        | .ok st =>
          .ok { g with currentItem := item, options := st.options,
                       correctIndex := (correctIndex : Int), rand := st.rand }

/-! ## `Update` -/

def screenWidth : Int := 640
def screenHeight : Int := 480
def cardWidth : Int := 180
def cardHeight : Int := 80
def cardSpacing : Int := 20
def totalCardsWidth : Int := 3 * cardWidth + 2 * cardSpacing
def startX : Int := (screenWidth - totalCardsWidth) / 2
def cardX (i : Nat) : Int := startX + (i : Int) * (cardWidth + cardSpacing)
def cardY : Int := screenHeight - 150

/-- What `Update` reads from the input devices in one frame:
`ebiten.IsKeyPressed(ebiten.KeySpace)`,
`inpututil.IsMouseButtonJustPressed(ebiten.MouseButtonLeft)` and
`ebiten.CursorPosition()`. -/
structure Input where
  spaceDown : Bool
  leftJustPressed : Bool
  cursorX : Int
  cursorY : Int

/-- The hit test `x >= cardX && x < cardX+cardWidth && y >= cardY && y < cardY+cardHeight`. -/
def inCard (i : Nat) (x y : Int) : Bool :=
  decide (x ≥ cardX i) && decide (x < cardX i + cardWidth) &&
    decide (y ≥ cardY) && decide (y < cardY + cardHeight)

/-- The body of `if i == g.correctIndex { ... }`: `g.score++`, the best-score
update, and `g.startNewRound()`. -/
def correctAnswer (fuel : Nat) (g : Game) : Except Fault Game :=
  let g1 := { g with score := wrapInt (g.score + 1) }
  let g2 := if g1.score > g1.bestScore then { g1 with bestScore := g1.score } else g1
  startNewRound fuel g2

/-- The loop `for i := 0; i < 3; i++ { ... }` of `Update` over the cards still to test. -/
def clickCards (fuel : Nat) (g : Game) (x y : Int) : List Nat → Except Fault Game
  | [] => .ok g
  | i :: rest =>
    if inCard i x y then
      if (i : Int) = g.correctIndex then correctAnswer fuel g
      else .ok { g with gameOver := true }
    else clickCards fuel g x y rest

/-- `func (g *Game) Update() error`; the returned `error` is always `nil`. -/
def Update (fuel : Nat) (g : Game) (inp : Input) : Except Fault Game :=
  if g.gameOver then
    if inp.spaceDown then startNewRound fuel { g with gameOver := false, score := 0 }
    else .ok g
  else if inp.leftJustPressed then clickCards fuel g inp.cursorX inp.cursorY [0, 1, 2]
  else .ok g

/-- The struct literal of `NewGame`: the vocabulary and the random source are
set, every other field has its zero value. -/
def zeroGame (r : Rand) : Game :=
  { sushiItems := vocabulary, currentItem := ⟨"", ""⟩, options := [],
    correctIndex := 0, score := 0, bestScore := 0, gameOver := false, rand := r }

/-- `func NewGame() *Game` with the random source it creates passed in:
the struct literal, then `g.startNewRound()`.  The font loading in between
touches no field of the model; when it fails the process exits and there is no
game state at all. -/
def NewGame (fuel : Nat) (r : Rand) : Except Fault Game :=
  startNewRound fuel (zeroGame r)

/-- The frame driver: `Update` is called once per frame, each call with the
input of its frame (and a fuel bound for that call). -/
def runUpdates : Game → List (Nat × Input) → Except Fault Game
  | g, [] => .ok g
  | g, (fuel, inp) :: rest =>
    match Update fuel g inp with
    | .error e => .error e
    | .ok g1 => runUpdates g1 rest

/-! ## Specification predicates -/

/-- The options of `g` come from three pairwise distinct vocabulary indices, the
one behind slot `correctIndex` being the index of `currentItem`. -/
def ValidRound (g : Game) : Prop :=
  ∃ (c i0 i1 i2 : Nat) (it0 it1 it2 : SushiItem),
    c < 3 ∧ g.correctIndex = (c : Int) ∧
    g.sushiItems[i0]? = some it0 ∧ g.sushiItems[i1]? = some it1 ∧
    g.sushiItems[i2]? = some it2 ∧
    i0 ≠ i1 ∧ i0 ≠ i2 ∧ i1 ≠ i2 ∧
    g.options = [it0.English, it1.English, it2.English] ∧
    [it0, it1, it2][c]? = some g.currentItem

/-- Every index of `[0, n)` keeps occurring in the draws of `r` reduced modulo `n`. -/
def Fair (r : Rand) (n : Nat) : Prop :=
  ∀ k, k < n → ∀ p, ∃ q, p ≤ q ∧ r.draws q % n = k

/-! ## Concrete states and inputs -/

/-- The stream of draws 0, 1, 2, 3, ... -/
def countingRand : Rand := ⟨fun i => i, 0⟩

/-- The round `startNewRound` builds from the zero state on the counting stream:
item 0, correct slot 1, then indices 2 and 3 for slots 0 and 2. -/
def round1 : Game :=
  { sushiItems := vocabulary, currentItem := ⟨"鮪", "Tuna"⟩,
    options := ["Yellowtail", "Tuna", "Sea Bream"],
    correctIndex := 1, score := 0, bestScore := 0, gameOver := false,
    rand := ⟨fun i => i, 4⟩ }

/-- A frame in which the left button was just pressed at `(x, y)`, space up. -/
def click (x y : Int) : Input :=
  { spaceDown := false, leftJustPressed := true, cursorX := x, cursorY := y }

/-- A frame in which only the space key is down. -/
def spaceFrame : Input :=
  { spaceDown := true, leftJustPressed := false, cursorX := 0, cursorY := 0 }

/-- The state `round1` with `score = 5` and `bestScore = 3`. -/
def game53 : Game := { round1 with score := 5, bestScore := 3 }

/-- The state `round1` with the score at the largest `int`. -/
def overflowGame : Game := { round1 with score := maxInt, bestScore := maxInt }

/-- A game-over state: `round1` after a wrong answer, with `score = 2`, `bestScore = 4`. -/
def lostGame : Game := { round1 with score := 2, bestScore := 4, gameOver := true }

/-- The periodic stream of draws 0, 0, 1, 2, 0, 0, 1, 2, ... -/
def cycleDraws : Nat → Nat := fun i => i % 4 - 1

/-- The round every `startNewRound` builds on the periodic stream (item 0 in
slot 0, then items 1 and 2), after `k` rounds, with the given scores. -/
def cycleRound (k : Nat) (score bestScore : Int) : Game :=
  { sushiItems := vocabulary, currentItem := ⟨"鮪", "Tuna"⟩,
    options := ["Tuna", "Salmon", "Yellowtail"],
    correctIndex := 0, score := score, bestScore := bestScore, gameOver := false,
    rand := ⟨cycleDraws, 4 * k⟩ }

/-- Four frames: a click on card 1, a click outside the cards, a click on card 0,
and the space key. -/
def sampleFrames : List (Nat × Input) :=
  [(1, click 230 330), (1, click 10 10), (1, click 30 330), (1, spaceFrame)]

/-- The state after `sampleFrames` from `round1`: one correct answer, a wrong
answer and a restart. -/
def afterSample : Game :=
  { sushiItems := vocabulary, currentItem := ⟨"鯖", "Mackerel"⟩,
    options := ["Mackerel", "Anglerfish", "Pike Conger"],
    correctIndex := 0, score := 0, bestScore := 1, gameOver := false,
    rand := ⟨fun i => i, 12⟩ }

/-- The zero state of a game whose vocabulary is cut down to its first `n` entries. -/
def smallGame (n : Nat) (r : Rand) : Game :=
  { zeroGame r with sushiItems := vocabulary.take n }

/-! ## Lemmas on the random source and the rejection loop -/

theorem drawUnused_ok (n : Nat) (used : List Nat) :
    ∀ (fuel : Nat) (r : Rand) (k : Nat) (r' : Rand),
      drawUnused n used fuel r = .ok (k, r') →
        k < n ∧ k ∉ used ∧ r'.draws = r.draws ∧ r.pos < r'.pos := by
  intro fuel
  induction fuel with
  | zero => intro r k r' h; simp [drawUnused] at h
  | succ fuel ih =>
    intro r k r' h
    unfold drawUnused at h
    by_cases hn : n = 0
    · simp [Rand.Intn, hn] at h
    · simp only [Rand.Intn, hn, if_false] at h
      by_cases hm : r.draws r.pos % n ∈ used
      · simp only [hm, if_true] at h
        obtain ⟨h1, h2, h3, h4⟩ := ih _ _ _ h
        exact ⟨h1, h2, h3, by simp at h4; omega⟩
      · simp only [hm, if_false, Except.ok.injEq, Prod.mk.injEq] at h
        obtain ⟨h1, h2⟩ := h
        subst h1; subst h2
        exact ⟨Nat.mod_lt _ (Nat.pos_of_ne_zero hn), hm, rfl, by simp⟩

theorem drawUnused_mono (n : Nat) (used : List Nat) :
    ∀ (fuel : Nat) (r : Rand) (res : Nat × Rand),
      drawUnused n used fuel r = .ok res →
        ∀ fuel', fuel ≤ fuel' → drawUnused n used fuel' r = .ok res := by
  intro fuel
  induction fuel with
  | zero => intro r res h; simp [drawUnused] at h
  | succ fuel ih =>
    intro r res h fuel' hle
    obtain ⟨m, rfl⟩ : ∃ m, fuel' = m + 1 := ⟨fuel' - 1, by omega⟩
    unfold drawUnused at h ⊢
    by_cases hn : n = 0
    · simp [Rand.Intn, hn] at h
    · simp only [Rand.Intn, hn, if_false] at h ⊢
      by_cases hm : r.draws r.pos % n ∈ used
      · simp only [hm, if_true] at h ⊢
        exact ih _ _ h m (by omega)
      · simp only [hm, if_false] at h ⊢
        exact h

/-- The rejection loop stops as soon as the stream offers an unused index. -/
theorem drawUnused_terminates (n : Nat) (hn : n ≠ 0) (used : List Nat) :
    ∀ (d : Nat) (r : Rand), r.draws (r.pos + d) % n ∉ used →
      ∃ res, drawUnused n used (d + 1) r = .ok res := by
  intro d
  induction d with
  | zero =>
    intro r h
    simp only [Nat.add_zero] at h
    exact ⟨(r.draws r.pos % n, { r with pos := r.pos + 1 }),
      by simp [drawUnused, Rand.Intn, hn, h]⟩
  | succ d ih =>
    intro r h
    by_cases hm : r.draws r.pos % n ∈ used
    · obtain ⟨res, hres⟩ := ih { r with pos := r.pos + 1 }
        (by simpa [Nat.add_assoc, Nat.add_comm 1 d] using h)
      refine ⟨res, ?_⟩
      rw [drawUnused]
      simp only [Rand.Intn, hn, if_false, hm, if_true]
      exact hres
    · exact ⟨(r.draws r.pos % n, { r with pos := r.pos + 1 }),
        by rw [drawUnused]; simp [Rand.Intn, hn, hm]⟩

/-- When every index is already used the rejection loop never exits. -/
theorem drawUnused_stuck (n : Nat) (hn : n ≠ 0) (used : List Nat)
    (hall : ∀ k, k < n → k ∈ used) :
    ∀ (fuel : Nat) (r : Rand), drawUnused n used fuel r = .error .fuel := by
  intro fuel
  induction fuel with
  | zero => intro r; rfl
  | succ fuel ih =>
    intro r
    rw [drawUnused]
    simp only [Rand.Intn, hn, if_false,
      hall _ (Nat.mod_lt _ (Nat.pos_of_ne_zero hn)), if_true]
    exact ih _

/-! ## Lemmas on `startNewRound` -/

theorem fillSlot_ok (items : List SushiItem) (c fuel : Nat) (st st' : FillState) (i : Nat)
    (h : fillSlot items c fuel st i = .ok st') :
    (i = c ∧ st' = st) ∨
    (i ≠ c ∧ ∃ (k : Nat) (it : SushiItem) (r' : Rand),
      k ∉ st.usedIndices ∧ items[k]? = some it ∧
      r'.draws = st.rand.draws ∧ st.rand.pos < r'.pos ∧
      st' = { options := st.options.set i it.English,
              usedIndices := k :: st.usedIndices, rand := r' }) := by
  unfold fillSlot at h
  by_cases hic : i = c
  · simp only [hic, if_true, Except.ok.injEq] at h
    exact Or.inl ⟨hic, h.symm⟩
  · right
    simp only [hic, if_false] at h
    cases hd : drawUnused items.length st.usedIndices fuel st.rand with
    | error e => simp [hd] at h
    | ok res =>
      obtain ⟨k, r'⟩ := res
      simp only [hd] at h
      obtain ⟨_, hk, hdr, hpos⟩ := drawUnused_ok _ _ _ _ _ _ hd
      cases hit : items[k]? with
      | none => simp [hit] at h
      | some it =>
        simp only [hit, Except.ok.injEq] at h
        exact ⟨hic, k, it, r', hk, hit, hdr, hpos, h.symm⟩

theorem fillOptions_cons_ok (items : List SushiItem) (c fuel : Nat) (st st' : FillState)
    (i : Nat) (rest : List Nat)
    (h : fillOptions items c fuel st (i :: rest) = .ok st') :
    ∃ st1, fillSlot items c fuel st i = .ok st1 ∧
      fillOptions items c fuel st1 rest = .ok st' := by
  rw [fillOptions] at h
  cases hs : fillSlot items c fuel st i with
  | error e => simp [hs] at h
  | ok st1 => simp only [hs] at h; exact ⟨st1, rfl, h⟩

/-- What a finished `startNewRound` leaves behind: a valid round, and everything
but the round and the cursor of the random source as it was. -/
theorem startNewRound_ok (fuel : Nat) (g g' : Game)
    (h : startNewRound fuel g = .ok g') :
    ValidRound g' ∧ g'.sushiItems = g.sushiItems ∧ g'.score = g.score ∧
      g'.bestScore = g.bestScore ∧ g'.gameOver = g.gameOver ∧
      g'.rand.draws = g.rand.draws ∧ g.rand.pos + 4 ≤ g'.rand.pos := by
  unfold startNewRound at h
  by_cases hn : g.sushiItems.length = 0
  · simp [Rand.Intn, hn] at h
  simp only [Rand.Intn, hn, if_false] at h
  cases hit : g.sushiItems[g.rand.draws g.rand.pos % g.sushiItems.length]? with
  | none => simp [hit] at h
  | some item =>
    simp only [hit, show (3 : Nat) ≠ 0 by decide, if_false] at h
    have hc : g.rand.draws (g.rand.pos + 1) % 3 < 3 := Nat.mod_lt _ (by decide)
    generalize g.rand.draws (g.rand.pos + 1) % 3 = c at h hc
    generalize hi : g.rand.draws g.rand.pos % g.sushiItems.length = itemIndex at h hit
    split at h
    · exact absurd h (by simp)
    · rename_i st hf
      simp only [Except.ok.injEq] at h
      subst h
      obtain ⟨s0, h0, hf⟩ := fillOptions_cons_ok _ _ _ _ _ _ _ hf
      obtain ⟨s1, h1, hf⟩ := fillOptions_cons_ok _ _ _ _ _ _ _ hf
      obtain ⟨s2, h2, hf⟩ := fillOptions_cons_ok _ _ _ _ _ _ _ hf
      simp only [fillOptions, Except.ok.injEq] at hf
      subst hf
      interval_cases c
      · rcases fillSlot_ok _ _ _ _ _ _ h0 with ⟨_, rfl⟩ | ⟨hne, _⟩
        swap
        · exact absurd rfl hne
        rcases fillSlot_ok _ _ _ _ _ _ h1 with ⟨hne, _⟩ | ⟨_, k1, it1, r1, hk1, hit1, hd1, hp1, rfl⟩
        · exact absurd hne (by decide)
        rcases fillSlot_ok _ _ _ _ _ _ h2 with ⟨hne, _⟩ | ⟨_, k2, it2, r2, hk2, hit2, hd2, hp2, rfl⟩
        · exact absurd hne (by decide)
        simp only [List.mem_cons, List.mem_singleton, List.not_mem_nil, or_false, not_or] at hk1 hk2
        refine ⟨⟨0, itemIndex, k1, k2, item, it1, it2, by decide, rfl, hit, hit1, hit2,
          fun e => hk1 e.symm, fun e => hk2.2 e.symm, fun e => hk2.1 e.symm, rfl, rfl⟩,
          rfl, rfl, rfl, rfl, ?_, ?_⟩
        · simp [hd2, hd1]
        · simp at hp1 hp2 ⊢; omega
      · rcases fillSlot_ok _ _ _ _ _ _ h1 with ⟨_, rfl⟩ | ⟨hne, _⟩
        swap
        · exact absurd rfl hne
        rcases fillSlot_ok _ _ _ _ _ _ h0 with ⟨hne, _⟩ | ⟨_, k1, it1, r1, hk1, hit1, hd1, hp1, rfl⟩
        · exact absurd hne (by decide)
        rcases fillSlot_ok _ _ _ _ _ _ h2 with ⟨hne, _⟩ | ⟨_, k2, it2, r2, hk2, hit2, hd2, hp2, rfl⟩
        · exact absurd hne (by decide)
        simp only [List.mem_cons, List.mem_singleton, List.not_mem_nil, or_false, not_or] at hk1 hk2
        refine ⟨⟨1, k1, itemIndex, k2, it1, item, it2, by decide, rfl, hit1, hit, hit2,
          hk1, fun e => hk2.1 e.symm, fun e => hk2.2 e.symm, rfl, rfl⟩,
          rfl, rfl, rfl, rfl, ?_, ?_⟩
        · simp [hd2, hd1]
        · simp at hp1 hp2 ⊢; omega
      · rcases fillSlot_ok _ _ _ _ _ _ h2 with ⟨_, rfl⟩ | ⟨hne, _⟩
        swap
        · exact absurd rfl hne
        rcases fillSlot_ok _ _ _ _ _ _ h0 with ⟨hne, _⟩ | ⟨_, k1, it1, r1, hk1, hit1, hd1, hp1, rfl⟩
        · exact absurd hne (by decide)
        rcases fillSlot_ok _ _ _ _ _ _ h1 with ⟨hne, _⟩ | ⟨_, k2, it2, r2, hk2, hit2, hd2, hp2, rfl⟩
        · exact absurd hne (by decide)
        simp only [List.mem_cons, List.mem_singleton, List.not_mem_nil, or_false, not_or] at hk1 hk2
        refine ⟨⟨2, k1, k2, itemIndex, it1, it2, item, by decide, rfl, hit1, hit2, hit,
          fun e => hk2.1 e.symm, hk1, hk2.2, rfl, rfl⟩,
          rfl, rfl, rfl, rfl, ?_, ?_⟩
        · simp [hd2, hd1]
        · simp at hp1 hp2 ⊢; omega

/-! ## The fuel is only a bound: more fuel gives the same result -/

theorem fillSlot_mono (items : List SushiItem) (c fuel fuel' : Nat) (st st' : FillState)
    (i : Nat) (h : fillSlot items c fuel st i = .ok st') (hle : fuel ≤ fuel') :
    fillSlot items c fuel' st i = .ok st' := by
  unfold fillSlot at h ⊢
  by_cases hic : i = c
  · simpa [hic] using h
  · simp only [hic, if_false] at h ⊢
    cases hd : drawUnused items.length st.usedIndices fuel st.rand with
    | error e => simp [hd] at h
    | ok res =>
      rw [drawUnused_mono _ _ _ _ _ hd fuel' hle]
      rw [hd] at h
      exact h

theorem fillOptions_mono (items : List SushiItem) (c fuel fuel' : Nat) (hle : fuel ≤ fuel') :
    ∀ (l : List Nat) (st st' : FillState),
      fillOptions items c fuel st l = .ok st' → fillOptions items c fuel' st l = .ok st' := by
  intro l
  induction l with
  | nil => intro st st' h; simpa [fillOptions] using h
  | cons i rest ih =>
    intro st st' h
    obtain ⟨s1, h1, h2⟩ := fillOptions_cons_ok _ _ _ _ _ _ _ h
    rw [fillOptions, fillSlot_mono _ _ _ _ _ _ _ h1 hle]
    exact ih _ _ h2

theorem startNewRound_mono (fuel fuel' : Nat) (g g' : Game)
    (h : startNewRound fuel g = .ok g') (hle : fuel ≤ fuel') :
    startNewRound fuel' g = .ok g' := by
  unfold startNewRound at h ⊢
  split at h
  · exact absurd h (by simp)
  · split at h
    · exact absurd h (by simp)
    · split at h
      · exact absurd h (by simp)
      · split at h
        · exact absurd h (by simp)
        · rename_i st hst
          rw [fillOptions_mono _ _ _ _ hle _ _ _ hst]
          exact h

/-! ## Termination of `startNewRound` -/

theorem exists_unused (used : List Nat) (n : Nat) (h : used.length < n) :
    ∃ k, k < n ∧ k ∉ used := by
  by_contra hcon
  push_neg at hcon
  have hsub : List.range n ⊆ used := fun k hk => hcon k (List.mem_range.mp hk)
  have hlen := ((List.nodup_range n).subperm hsub).length_le
  rw [List.length_range] at hlen
  omega

theorem drawUnused_error (n : Nat) (hn : n ≠ 0) (used : List Nat) :
    ∀ (fuel : Nat) (r : Rand) (e : Fault),
      drawUnused n used fuel r = .error e → e = .fuel := by
  intro fuel
  induction fuel with
  | zero => intro r e h; simp only [drawUnused, Except.error.injEq] at h; exact h.symm
  | succ fuel ih =>
    intro r e h
    rw [drawUnused] at h
    simp only [Rand.Intn, hn, if_false] at h
    by_cases hm : r.draws r.pos % n ∈ used
    · simp only [hm, if_true] at h
      exact ih _ _ h
    · simp [hm] at h

theorem fillSlot_error (items : List SushiItem) (hn : items.length ≠ 0) (c fuel : Nat)
    (st : FillState) (i : Nat) (e : Fault)
    (h : fillSlot items c fuel st i = .error e) : e = .fuel := by
  unfold fillSlot at h
  by_cases hic : i = c
  · simp [hic] at h
  · simp only [hic, if_false] at h
    cases hd : drawUnused items.length st.usedIndices fuel st.rand with
    | error e' =>
      simp only [hd, Except.error.injEq] at h
      subst h
      exact drawUnused_error _ hn _ _ _ _ hd
    | ok res =>
      obtain ⟨k, r'⟩ := res
      simp only [hd] at h
      obtain ⟨hk, _⟩ := drawUnused_ok _ _ _ _ _ _ hd
      rw [List.getElem?_eq_getElem hk] at h
      simp at h

theorem fillSlot_stuck (items : List SushiItem) (hn : items.length ≠ 0) (c fuel : Nat)
    (st : FillState) (i : Nat) (hic : i ≠ c)
    (hall : ∀ k, k < items.length → k ∈ st.usedIndices) :
    fillSlot items c fuel st i = .error .fuel := by
  unfold fillSlot
  simp only [hic, if_false]
  rw [drawUnused_stuck _ hn _ hall]

/-- A slot is filled after finitely many draws when an index is still free and the
stream is fair; the result no longer depends on the fuel once there is enough. -/
theorem fillSlot_terminates (items : List SushiItem) (c : Nat) (st : FillState) (i : Nat)
    (hfree : i ≠ c → st.usedIndices.length < items.length)
    (hfair : Fair st.rand items.length) :
    ∃ (fuel0 : Nat) (st' : FillState),
      (∀ fuel, fuel0 ≤ fuel → fillSlot items c fuel st i = .ok st') ∧
      st'.rand.draws = st.rand.draws ∧ (i = c → st' = st) ∧
      st'.usedIndices.length ≤ st.usedIndices.length + 1 := by
  by_cases hic : i = c
  · exact ⟨0, st, fun fuel _ => by simp [fillSlot, hic], rfl, fun _ => rfl, by omega⟩
  · have hlt := hfree hic
    have hn : items.length ≠ 0 := by omega
    obtain ⟨k, hk, hku⟩ := exists_unused _ _ hlt
    obtain ⟨q, hq, hqk⟩ := hfair k hk st.rand.pos
    obtain ⟨res, hres⟩ := drawUnused_terminates items.length hn st.usedIndices
      (q - st.rand.pos) st.rand (by
        rw [Nat.add_sub_cancel' hq, hqk]; exact hku)
    obtain ⟨k', r'⟩ := res
    obtain ⟨hk', _, hdr, _⟩ := drawUnused_ok _ _ _ _ _ _ hres
    refine ⟨q - st.rand.pos + 1,
      { options := st.options.set i (items[k']).English,
        usedIndices := k' :: st.usedIndices, rand := r' }, ?_, hdr,
      fun h => absurd h hic, by simp⟩
    intro fuel hfuel
    unfold fillSlot
    simp only [hic, if_false]
    rw [drawUnused_mono _ _ _ _ _ hres fuel hfuel]
    simp only [List.getElem?_eq_getElem hk']

theorem Fair.of_draws_eq {r r' : Rand} {n : Nat} (h : Fair r n)
    (hd : r'.draws = r.draws) : Fair r' n := by
  intro k hk p
  rw [hd]
  exact h k hk p

/-- With at least three entries and a fair stream, `startNewRound` returns. -/
theorem startNewRound_terminates (g : Game) (hN : 3 ≤ g.sushiItems.length)
    (hfair : Fair g.rand g.sushiItems.length) :
    ∃ fuel g', startNewRound fuel g = .ok g' := by
  have hn : g.sushiItems.length ≠ 0 := by omega
  have hi : g.rand.draws g.rand.pos % g.sushiItems.length < g.sushiItems.length :=
    Nat.mod_lt _ (by omega)
  obtain ⟨f0, s0, h0, hd0, _, hl0⟩ := fillSlot_terminates g.sushiItems
    (g.rand.draws (g.rand.pos + 1) % 3)
    { options := (List.replicate 3 "").set (g.rand.draws (g.rand.pos + 1) % 3)
        (g.sushiItems[g.rand.draws g.rand.pos % g.sushiItems.length]).English,
      usedIndices := [g.rand.draws g.rand.pos % g.sushiItems.length],
      rand := { draws := g.rand.draws, pos := g.rand.pos + 1 + 1 } } 0
    (fun _ => by simpa using (by omega : 1 < g.sushiItems.length)) hfair
  obtain ⟨f1, s1, h1, hd1, he1, hl1⟩ := fillSlot_terminates g.sushiItems
    (g.rand.draws (g.rand.pos + 1) % 3) s0 1
    (fun _ => by simp at hl0; omega) (hfair.of_draws_eq hd0)
  obtain ⟨f2, s2, h2, _, _, _⟩ := fillSlot_terminates g.sushiItems
    (g.rand.draws (g.rand.pos + 1) % 3) s1 2
    (fun hne => by
      by_cases h1c : 1 = g.rand.draws (g.rand.pos + 1) % 3
      · rw [he1 h1c]; simp at hl0; omega
      · have h0c : 0 = g.rand.draws (g.rand.pos + 1) % 3 := by omega
        have hs0 := h0 f0 (le_refl _)
        simp only [fillSlot, h0c, if_true, Except.ok.injEq] at hs0
        rw [← hs0] at hl1
        simp at hl1
        omega)
    (hfair.of_draws_eq (hd1.trans hd0))
  refine ⟨max f0 (max f1 f2), ?_⟩
  unfold startNewRound
  simp only [Rand.Intn, hn, if_false, List.getElem?_eq_getElem hi,
    show (3 : Nat) ≠ 0 by decide, fillOptions,
    h0 _ (le_max_left _ _),
    h1 _ (le_trans (le_max_left _ _) (le_max_right _ _)),
    h2 _ (le_trans (le_max_right _ _) (le_max_right _ _))]
  exact ⟨_, rfl⟩

/-- The outer loop cannot finish when it has more slots to fill than free indices. -/
theorem fillOptions_diverges (items : List SushiItem) (hn : items.length ≠ 0)
    (c fuel : Nat) :
    ∀ (l : List Nat) (st : FillState), st.usedIndices.Nodup →
      (∀ k, k ∈ st.usedIndices → k < items.length) →
      items.length < st.usedIndices.length + (l.filter (fun i => decide (i ≠ c))).length →
      fillOptions items c fuel st l = .error .fuel := by
  intro l
  induction l with
  | nil =>
    intro st hnd hlt hcount
    exfalso
    have hsub : st.usedIndices ⊆ List.range items.length :=
      fun k hk => List.mem_range.mpr (hlt k hk)
    have hlen := (hnd.subperm hsub).length_le
    rw [List.length_range] at hlen
    simp at hcount
    omega
  | cons i rest ih =>
    intro st hnd hlt hcount
    rw [fillOptions]
    by_cases hic : i = c
    · have hs : fillSlot items c fuel st i = .ok st := by simp [fillSlot, hic]
      rw [hs]
      refine ih st hnd hlt ?_
      simpa [List.filter_cons, hic] using hcount
    · cases hs : fillSlot items c fuel st i with
      | error e => rw [fillSlot_error _ hn _ _ _ _ _ hs]
      | ok st' =>
        rcases fillSlot_ok _ _ _ _ _ _ hs with ⟨h, _⟩ | ⟨_, k, it, r', hk, hit, _, _, rfl⟩
        · exact absurd h hic
        · have hklt : k < items.length := by
            by_contra hge
            rw [List.getElem?_eq_none (by omega)] at hit
            exact absurd hit (by simp)
          refine ih _ (List.nodup_cons.mpr ⟨hk, hnd⟩) ?_ ?_
          · intro j hj
            rcases List.mem_cons.mp hj with rfl | hj
            · exact hklt
            · exact hlt j hj
          · simp only [List.filter_cons, hic, ne_eq, not_false_eq_true, decide_True,
              if_true, List.length_cons] at hcount ⊢
            omega

/-- With one or two entries `startNewRound` never returns, whatever is drawn. -/
theorem startNewRound_diverges (g : Game) (h1 : 1 ≤ g.sushiItems.length)
    (h3 : g.sushiItems.length < 3) (fuel : Nat) :
    startNewRound fuel g = .error .fuel := by
  have hn : g.sushiItems.length ≠ 0 := by omega
  have hi : g.rand.draws g.rand.pos % g.sushiItems.length < g.sushiItems.length :=
    Nat.mod_lt _ (by omega)
  have hc : g.rand.draws (g.rand.pos + 1) % 3 < 3 := Nat.mod_lt _ (by decide)
  unfold startNewRound
  simp only [Rand.Intn, hn, if_false, List.getElem?_eq_getElem hi,
    show (3 : Nat) ≠ 0 by decide]
  rw [fillOptions_diverges _ hn]
  · simp
  · intro k hk
    simp only [List.mem_singleton] at hk
    omega
  · generalize g.rand.draws (g.rand.pos + 1) % 3 = c at hc
    interval_cases c <;> simp [List.filter] <;> omega

/-! ## Lemmas on `Update` -/

theorem inCard_iff (i : Nat) (x y : Int) :
    inCard i x y = true ↔
      30 + 200 * (i : Int) ≤ x ∧ x < 210 + 200 * (i : Int) ∧ 330 ≤ y ∧ y < 410 := by
  simp only [inCard, cardX, cardY, startX, totalCardsWidth, screenWidth, screenHeight,
    cardWidth, cardHeight, cardSpacing, Bool.and_eq_true, decide_eq_true_eq]
  norm_num
  constructor
  · rintro ⟨⟨⟨h1, h2⟩, h3⟩, h4⟩; exact ⟨by omega, by omega, h3, h4⟩
  · rintro ⟨h1, h2, h3, h4⟩; exact ⟨⟨⟨by omega, by omega⟩, h3⟩, h4⟩

/-- A just-pressed click inside card `i` is handled by the branch of card `i`. -/
theorem clickCards_hit (fuel : Nat) (g : Game) (x y : Int) (i : Nat) (hi : i < 3)
    (hx1 : 30 + 200 * (i : Int) ≤ x) (hx2 : x < 210 + 200 * (i : Int))
    (hy1 : 330 ≤ y) (hy2 : y < 410) :
    clickCards fuel g x y [0, 1, 2] =
      if (i : Int) = g.correctIndex then correctAnswer fuel g
      else .ok { g with gameOver := true } := by
  have hin : ∀ j : Nat, inCard j x y = true ↔ j = i := by
    intro j
    rw [inCard_iff]
    constructor
    · rintro ⟨h1, h2, _, _⟩; omega
    · rintro rfl; exact ⟨hx1, hx2, hy1, hy2⟩
  have hnot : ∀ j : Nat, j ≠ i → inCard j x y = false := by
    intro j hj
    cases h : inCard j x y with
    | false => rfl
    | true => exact absurd ((hin j).mp h) hj
  interval_cases i
  · simp [clickCards, (hin 0).mpr rfl]
  · simp [clickCards, (hin 1).mpr rfl, hnot 0 (by decide)]
  · simp [clickCards, (hin 2).mpr rfl, hnot 0 (by decide), hnot 1 (by decide)]

/-- A click inside none of the three cards changes nothing. -/
theorem clickCards_miss (fuel : Nat) (g : Game) (x y : Int)
    (hout : ∀ i : Nat, i < 3 →
      ¬ (30 + 200 * (i : Int) ≤ x ∧ x < 210 + 200 * (i : Int) ∧ 330 ≤ y ∧ y < 410)) :
    clickCards fuel g x y [0, 1, 2] = .ok g := by
  have hnot : ∀ j : Nat, j < 3 → inCard j x y = false := by
    intro j hj
    cases h : inCard j x y with
    | false => rfl
    | true => exact absurd ((inCard_iff j x y).mp h) (hout j hj)
  simp [clickCards, hnot 0 (by decide), hnot 1 (by decide), hnot 2 (by decide)]

theorem wrapInt_of_inRange (x : Int) (hlo : minInt ≤ x) (hhi : x ≤ maxInt) :
    wrapInt x = x := by
  simp only [wrapInt, minInt, maxInt, intBits] at *
  norm_num at *
  omega

theorem wrapInt_ge (x : Int) : minInt ≤ wrapInt x := by
  simp only [wrapInt, minInt, intBits]
  norm_num
  omega

/-- The best score after a correct answer is never below the one before. -/
theorem correctAnswer_bestScore (fuel : Nat) (g g' : Game)
    (h : correctAnswer fuel g = .ok g') :
    g.bestScore ≤ g'.bestScore ∧ g'.gameOver = g.gameOver ∧
      g'.score = wrapInt (g.score + 1) ∧
      g'.bestScore = max g.bestScore (wrapInt (g.score + 1)) ∧ ValidRound g' := by
  unfold correctAnswer at h
  simp only at h
  obtain ⟨hv, _, hs, hb, hg, _, _⟩ := startNewRound_ok _ _ _ h
  by_cases hlt : wrapInt (g.score + 1) > g.bestScore
  · simp only [hlt, if_true] at hs hb hg
    refine ⟨by rw [hb]; omega, hg, hs, ?_, hv⟩
    rw [hb, max_eq_right (le_of_lt hlt)]
  · simp only [hlt, if_false] at hs hb hg
    refine ⟨by rw [hb], hg, hs, ?_, hv⟩
    rw [hb, max_eq_left (by omega)]

/-- The four ways in which `Update` returns. -/
theorem Update_ok_cases (fuel : Nat) (g g' : Game) (inp : Input)
    (h : Update fuel g inp = .ok g') :
    g' = g ∨ (g.gameOver = false ∧ g' = { g with gameOver := true }) ∨
      (g.gameOver = false ∧ correctAnswer fuel g = .ok g') ∨
      (g.gameOver = true ∧
        startNewRound fuel { g with gameOver := false, score := 0 } = .ok g') := by
  unfold Update at h
  by_cases hover : g.gameOver = true
  · simp only [hover, if_true] at h
    by_cases hs : inp.spaceDown = true
    · simp only [hs, if_true] at h
      exact Or.inr (Or.inr (Or.inr ⟨hover, h⟩))
    · simp only [hs, Bool.false_eq_true, if_false, Except.ok.injEq] at h
      exact Or.inl h.symm
  · have hplay : g.gameOver = false := by simpa using hover
    simp only [hplay, Bool.false_eq_true, if_false] at h
    by_cases hp : inp.leftJustPressed = true
    · simp only [hp, if_true, clickCards] at h
      repeat' split at h
      all_goals first
        | exact Or.inr (Or.inr (Or.inl ⟨hplay, h⟩))
        | (simp only [Except.ok.injEq] at h
           first
             | exact Or.inl h.symm
             | exact Or.inr (Or.inl ⟨hplay, h.symm⟩))
    · simp only [hp, Bool.false_eq_true, if_false, Except.ok.injEq] at h
      exact Or.inl h.symm

/-- One `Update` never lowers the best score. -/
theorem Update_bestScore_le (fuel : Nat) (g g' : Game) (inp : Input)
    (h : Update fuel g inp = .ok g') : g.bestScore ≤ g'.bestScore := by
  rcases Update_ok_cases fuel g g' inp h with rfl | ⟨_, rfl⟩ | ⟨_, hc⟩ | ⟨_, hr⟩
  · exact le_refl _
  · exact le_refl _
  · exact (correctAnswer_bestScore fuel g g' hc).1
  · obtain ⟨_, _, _, hb, _⟩ := startNewRound_ok _ _ _ hr
    rw [hb]

/-- One `Update` keeps `minInt <= score <= bestScore` and `0 <= bestScore`. -/
theorem Update_score_le_bestScore (fuel : Nat) (g g' : Game) (inp : Input)
    (h : Update fuel g inp = .ok g')
    (hinv : minInt ≤ g.score ∧ g.score ≤ g.bestScore ∧ 0 ≤ g.bestScore) :
    minInt ≤ g'.score ∧ g'.score ≤ g'.bestScore ∧ 0 ≤ g'.bestScore := by
  obtain ⟨h1, h2, h3⟩ := hinv
  rcases Update_ok_cases fuel g g' inp h with rfl | ⟨_, rfl⟩ | ⟨_, hc⟩ | ⟨_, hr⟩
  · exact ⟨h1, h2, h3⟩
  · exact ⟨h1, h2, h3⟩
  · obtain ⟨hle, _, hs, hb, _⟩ := correctAnswer_bestScore fuel g g' hc
    refine ⟨by rw [hs]; exact wrapInt_ge _, ?_, by omega⟩
    rw [hs, hb]
    exact le_max_right _ _
  · obtain ⟨_, _, hs, hb, _⟩ := startNewRound_ok _ _ _ hr
    simp only at hs hb
    rw [hs, hb]
    exact ⟨by simp [minInt, intBits], h3, h3⟩

/-- One `Update` raises a non-negative score below the largest `int` by at most
one and keeps it non-negative. -/
theorem Update_score_step (fuel : Nat) (g g' : Game) (inp : Input)
    (h : Update fuel g inp = .ok g') (h0 : 0 ≤ g.score) (hmax : g.score < maxInt) :
    0 ≤ g'.score ∧ g'.score ≤ g.score + 1 := by
  rcases Update_ok_cases fuel g g' inp h with rfl | ⟨_, rfl⟩ | ⟨_, hc⟩ | ⟨_, hr⟩
  · exact ⟨h0, by omega⟩
  · exact ⟨h0, by show g.score ≤ g.score + 1; omega⟩
  · obtain ⟨_, _, hs, _, _⟩ := correctAnswer_bestScore fuel g g' hc
    rw [hs, wrapInt_of_inRange _ (by simp only [minInt, intBits]; norm_num; omega) (by omega)]
    omega
  · obtain ⟨_, _, hs, _, _⟩ := startNewRound_ok _ _ _ hr
    simp only at hs
    rw [hs]
    omega

theorem runUpdates_cons_ok (g g' : Game) (fuel : Nat) (inp : Input)
    (rest : List (Nat × Input)) (h : runUpdates g ((fuel, inp) :: rest) = .ok g') :
    ∃ g1, Update fuel g inp = .ok g1 ∧ runUpdates g1 rest = .ok g' := by
  rw [runUpdates] at h
  cases hu : Update fuel g inp with
  | error e => simp [hu] at h
  | ok g1 => simp only [hu] at h; exact ⟨g1, rfl, h⟩

theorem runUpdates_bestScore_le :
    ∀ (frames : List (Nat × Input)) (g g' : Game),
      runUpdates g frames = .ok g' → g.bestScore ≤ g'.bestScore := by
  intro frames
  induction frames with
  | nil =>
    intro g g' h
    simp only [runUpdates, Except.ok.injEq] at h
    rw [h]
  | cons f rest ih =>
    intro g g' h
    obtain ⟨fuel, inp⟩ := f
    obtain ⟨g1, h1, h2⟩ := runUpdates_cons_ok _ _ _ _ _ h
    exact le_trans (Update_bestScore_le _ _ _ _ h1) (ih _ _ h2)

theorem runUpdates_score_le_bestScore :
    ∀ (frames : List (Nat × Input)) (g g' : Game),
      runUpdates g frames = .ok g' →
      (minInt ≤ g.score ∧ g.score ≤ g.bestScore ∧ 0 ≤ g.bestScore) →
      (minInt ≤ g'.score ∧ g'.score ≤ g'.bestScore ∧ 0 ≤ g'.bestScore) := by
  intro frames
  induction frames with
  | nil =>
    intro g g' h hinv
    simp only [runUpdates, Except.ok.injEq] at h
    rw [← h]; exact hinv
  | cons f rest ih =>
    intro g g' h hinv
    obtain ⟨fuel, inp⟩ := f
    obtain ⟨g1, h1, h2⟩ := runUpdates_cons_ok _ _ _ _ _ h
    exact ih _ _ h2 (Update_score_le_bestScore _ _ _ _ h1 hinv)

theorem runUpdates_score_nonneg :
    ∀ (frames : List (Nat × Input)) (g g' : Game),
      runUpdates g frames = .ok g' → 0 ≤ g.score →
      g.score + (frames.length : Int) ≤ maxInt →
      0 ≤ g'.score ∧ g'.score ≤ g.score + (frames.length : Int) := by
  intro frames
  induction frames with
  | nil =>
    intro g g' h h0 _
    simp only [runUpdates, Except.ok.injEq] at h
    rw [← h]; exact ⟨h0, by simp⟩
  | cons f rest ih =>
    intro g g' h h0 hlen
    obtain ⟨fuel, inp⟩ := f
    obtain ⟨g1, h1, h2⟩ := runUpdates_cons_ok _ _ _ _ _ h
    simp only [List.length_cons, Nat.cast_add, Nat.cast_one] at hlen ⊢
    obtain ⟨ha, hb⟩ := Update_score_step _ _ _ _ h1 h0 (by omega)
    obtain ⟨hc, hd⟩ := ih g1 g' h2 ha (by omega)
    exact ⟨hc, by omega⟩

/-! ## The periodic stream: a correct answer in every frame -/

/-- The round `startNewRound` builds when the next four draws select item 0,
slot 0, item 1 and item 2. -/
theorem startNewRound_of_draws (g : Game) (hv : g.sushiItems = vocabulary)
    (h0 : g.rand.draws g.rand.pos % 18 = 0)
    (h1 : g.rand.draws (g.rand.pos + 1) % 3 = 0)
    (h2 : g.rand.draws (g.rand.pos + 1 + 1) % 18 = 1)
    (h3 : g.rand.draws (g.rand.pos + 1 + 1 + 1) % 18 = 2) :
    startNewRound 1 g =
      .ok { g with currentItem := ⟨"鮪", "Tuna"⟩,
                   options := ["Tuna", "Salmon", "Yellowtail"],
                   correctIndex := 0,
                   rand := ⟨g.rand.draws, g.rand.pos + 1 + 1 + 1 + 1⟩ } := by
  have hlen : vocabulary.length = 18 := rfl
  have e0 : vocabulary[0]? = some ⟨"鮪", "Tuna"⟩ := rfl
  have e1 : vocabulary[1]? = some ⟨"鮭", "Salmon"⟩ := rfl
  have e2 : vocabulary[2]? = some ⟨"鰤", "Yellowtail"⟩ := rfl
  have f0 : ∀ st, fillSlot vocabulary 0 1 st 0 = .ok st := by
    intro st; simp only [fillSlot, if_true]
  have d1 : drawUnused 18 [0] 1 ⟨g.rand.draws, g.rand.pos + 1 + 1⟩ =
      .ok (1, ⟨g.rand.draws, g.rand.pos + 1 + 1 + 1⟩) := by
    simp only [drawUnused, Rand.Intn, h2]; simp
  have d2 : drawUnused 18 [1, 0] 1 ⟨g.rand.draws, g.rand.pos + 1 + 1 + 1⟩ =
      .ok (2, ⟨g.rand.draws, g.rand.pos + 1 + 1 + 1 + 1⟩) := by
    simp only [drawUnused, Rand.Intn, h3]; simp
  have f1 : ∀ o, fillSlot vocabulary 0 1 ⟨o, [0], ⟨g.rand.draws, g.rand.pos + 1 + 1⟩⟩ 1 =
      .ok ⟨o.set 1 "Salmon", [1, 0], ⟨g.rand.draws, g.rand.pos + 1 + 1 + 1⟩⟩ := by
    intro o
    simp only [fillSlot, hlen, d1, e1]; simp
  have f2 : ∀ o, fillSlot vocabulary 0 1
      ⟨o, [1, 0], ⟨g.rand.draws, g.rand.pos + 1 + 1 + 1⟩⟩ 2 =
      .ok ⟨o.set 2 "Yellowtail", [2, 1, 0],
        ⟨g.rand.draws, g.rand.pos + 1 + 1 + 1 + 1⟩⟩ := by
    intro o
    simp only [fillSlot, hlen, d2, e2]; simp
  have i0 : g.rand.Intn 18 = .ok (0, ⟨g.rand.draws, g.rand.pos + 1⟩) := by
    simp only [Rand.Intn, h0]; simp
  have i1 : Rand.Intn ⟨g.rand.draws, g.rand.pos + 1⟩ 3 =
      .ok (0, ⟨g.rand.draws, g.rand.pos + 1 + 1⟩) := by
    simp only [Rand.Intn, h1]; simp
  simp only [startNewRound, hv, hlen, i0, e0, i1, fillOptions, f0, f1, f2]
  rfl

theorem startNewRound_cycle (k : Nat) (score bestScore : Int) (over : Bool)
    (item : SushiItem) (opts : List String) (ci : Int) :
    startNewRound 1
        { sushiItems := vocabulary, currentItem := item, options := opts,
          correctIndex := ci, score := score, bestScore := bestScore, gameOver := over,
          rand := ⟨cycleDraws, 4 * k⟩ } =
      .ok { cycleRound (k + 1) score bestScore with gameOver := over } := by
  rw [startNewRound_of_draws _ rfl
    (by simp only [cycleDraws]; omega) (by simp only [cycleDraws]; omega)
    (by simp only [cycleDraws]; omega) (by simp only [cycleDraws]; omega)]
  simp only [cycleRound, Nat.mul_add]

/-- On the periodic stream a click on card 0 is a correct answer. -/
theorem Update_cycle (k : Nat) (score bestScore : Int) :
    Update 1 (cycleRound k score bestScore) (click 30 330) =
      .ok (cycleRound (k + 1) (wrapInt (score + 1))
        (if wrapInt (score + 1) > bestScore then wrapInt (score + 1) else bestScore)) := by
  have hU : Update 1 (cycleRound k score bestScore) (click 30 330) =
      correctAnswer 1 (cycleRound k score bestScore) := by
    unfold Update
    simp only [cycleRound, click, Bool.false_eq_true, if_false, if_true]
    rw [clickCards_hit 1 _ 30 330 0 (by decide) (by decide) (by decide) (by decide)
      (by decide)]
    simp
  rw [hU]
  unfold correctAnswer
  by_cases hlt : wrapInt (score + 1) > bestScore
  · simp only [cycleRound, hlt, if_true]
    exact startNewRound_cycle k _ _ false _ _ _
  · simp only [cycleRound, hlt, if_false]
    exact startNewRound_cycle k _ _ false _ _ _

/-- Correct answers in `n + 1` consecutive frames, the last of which finds the
score at the largest `int`. -/
theorem runUpdates_cycle_wrap :
    ∀ (n k : Nat) (s : Int), 0 ≤ s → s + (n : Int) = maxInt →
      runUpdates (cycleRound k s s) (List.replicate (n + 1) (1, click 30 330)) =
        .ok (cycleRound (k + n + 1) minInt maxInt) := by
  intro n
  induction n with
  | zero =>
    intro k s _ hs
    simp only [Nat.cast_zero, add_zero] at hs
    subst hs
    simp only [List.replicate, runUpdates, Update_cycle]
    rfl
  | succ n ih =>
    intro k s h0 hs
    simp only [Nat.cast_add, Nat.cast_one] at hs
    rw [List.replicate_succ, runUpdates, Update_cycle]
    have hw : wrapInt (s + 1) = s + 1 :=
      wrapInt_of_inRange _ (by simp only [minInt, intBits]; norm_num; omega) (by omega)
    simp only [hw, show s + 1 > s by omega, if_true]
    rw [ih (k + 1) (s + 1) (by omega) (by omega)]
    congr 2
    omega

/-! ## Facts on the vocabulary and on concrete streams -/

theorem vocabulary_english_nodup : (vocabulary.map SushiItem.English).Nodup := by
  decide

theorem vocabulary_english_inj (i j : Nat) (a b : SushiItem)
    (hi : vocabulary[i]? = some a) (hj : vocabulary[j]? = some b)
    (h : a.English = b.English) : i = j := by
  have hi' : (vocabulary.map SushiItem.English)[i]? = some a.English := by
    rw [List.getElem?_map, hi]; rfl
  have hj' : (vocabulary.map SushiItem.English)[j]? = some b.English := by
    rw [List.getElem?_map, hj]; rfl
  have hlt : i < (vocabulary.map SushiItem.English).length := by
    by_contra hge
    rw [List.getElem?_eq_none (by omega)] at hi'
    exact absurd hi' (by simp)
  exact List.getElem?_inj hlt vocabulary_english_nodup (by rw [hi', hj', h])

theorem fair_counting (n p0 : Nat) (hn : 0 < n) : Fair ⟨fun i => i, p0⟩ n := by
  intro k hk p
  refine ⟨n * p + k, ?_, ?_⟩
  · have : p ≤ n * p := Nat.le_mul_of_pos_left p hn
    omega
  · show (n * p + k) % n = k
    rw [Nat.mul_add_mod, Nat.mod_eq_of_lt hk]

/-! ## Claims on `startNewRound` -/

/-- C1. On the 18-entry vocabulary every round that `startNewRound` returns has
three options, `0 <= correctIndex < 3`, and an option equals
`currentItem.English` exactly at position `correctIndex`; on a fair stream of
draws it does return. -/
theorem startNewRound_one_correct_option (g : Game) (hv : g.sushiItems = vocabulary) :
    (∀ fuel g', startNewRound fuel g = .ok g' →
      g'.options.length = 3 ∧ 0 ≤ g'.correctIndex ∧ g'.correctIndex < 3 ∧
      ∀ j : Nat, j < 3 →
        (g'.options[j]? = some g'.currentItem.English ↔ (j : Int) = g'.correctIndex)) ∧
    (Fair g.rand 18 → ∃ fuel g', startNewRound fuel g = .ok g') := by
  constructor
  · intro fuel g' h
    obtain ⟨⟨c, i0, i1, i2, a0, a1, a2, hc, hci, h0, h1, h2, h01, h02, h12, hopt, hcur⟩,
      hitems, _⟩ := startNewRound_ok fuel g g' h
    rw [hitems, hv] at h0 h1 h2
    have e01 : a0.English ≠ a1.English :=
      fun e => h01 (vocabulary_english_inj _ _ _ _ h0 h1 e)
    have e02 : a0.English ≠ a2.English :=
      fun e => h02 (vocabulary_english_inj _ _ _ _ h0 h2 e)
    have e12 : a1.English ≠ a2.English :=
      fun e => h12 (vocabulary_english_inj _ _ _ _ h1 h2 e)
    refine ⟨by rw [hopt]; rfl, by rw [hci]; omega, by rw [hci]; omega, ?_⟩
    intro j hj
    rw [hopt, hci]
    interval_cases c <;> interval_cases j <;>
      simp only [List.getElem?_cons_zero, List.getElem?_cons_succ, Option.some.injEq] at hcur ⊢ <;>
      subst hcur <;>
      simp [e01, e02, e12, e01.symm, e02.symm, e12.symm]
  · intro hfair
    exact startNewRound_terminates g (by rw [hv]; decide)
      (by rw [hv]; exact hfair)

/-- C1 at the zero state on the counting stream. -/
theorem startNewRound_one_correct_option_witness :
    (zeroGame countingRand).sushiItems = vocabulary ∧
    startNewRound 1 (zeroGame countingRand) = .ok round1 ∧
    (round1.options.length = 3 ∧ 0 ≤ round1.correctIndex ∧ round1.correctIndex < 3 ∧
      ∀ j : Nat, j < 3 →
        (round1.options[j]? = some round1.currentItem.English ↔
          (j : Int) = round1.correctIndex)) :=
  ⟨rfl, rfl, (startNewRound_one_correct_option (zeroGame countingRand) rfl).1 1 round1 rfl⟩

/-- C2. On a vocabulary of at least three entries every round that
`startNewRound` returns is built from three pairwise distinct vocabulary
indices, the one behind slot `correctIndex` being the index of `currentItem`;
on the 18-entry vocabulary the three option strings are pairwise distinct; on a
fair stream of draws it does return. -/
theorem startNewRound_distinct_indices (g : Game) (h3 : 3 ≤ g.sushiItems.length) :
    (∀ fuel g', startNewRound fuel g = .ok g' →
      (∃ (c i0 i1 i2 : Nat) (a0 a1 a2 : SushiItem),
        c < 3 ∧ g'.correctIndex = (c : Int) ∧
        g.sushiItems[i0]? = some a0 ∧ g.sushiItems[i1]? = some a1 ∧
        g.sushiItems[i2]? = some a2 ∧
        i0 ≠ i1 ∧ i0 ≠ i2 ∧ i1 ≠ i2 ∧
        g'.options = [a0.English, a1.English, a2.English] ∧
        [a0, a1, a2][c]? = some g'.currentItem) ∧
      (g.sushiItems = vocabulary → g'.options.Nodup)) ∧
    (Fair g.rand g.sushiItems.length → ∃ fuel g', startNewRound fuel g = .ok g') := by
  constructor
  · intro fuel g' h
    obtain ⟨⟨c, i0, i1, i2, a0, a1, a2, hc, hci, h0, h1, h2, h01, h02, h12, hopt, hcur⟩,
      hitems, _⟩ := startNewRound_ok fuel g g' h
    rw [hitems] at h0 h1 h2
    refine ⟨⟨c, i0, i1, i2, a0, a1, a2, hc, hci, h0, h1, h2, h01, h02, h12, hopt, hcur⟩, ?_⟩
    intro hv
    rw [hv] at h0 h1 h2
    have e01 : a0.English ≠ a1.English :=
      fun e => h01 (vocabulary_english_inj _ _ _ _ h0 h1 e)
    have e02 : a0.English ≠ a2.English :=
      fun e => h02 (vocabulary_english_inj _ _ _ _ h0 h2 e)
    have e12 : a1.English ≠ a2.English :=
      fun e => h12 (vocabulary_english_inj _ _ _ _ h1 h2 e)
    rw [hopt]
    simp [e01, e02, e12]
  · exact startNewRound_terminates g h3

/-- C2 at the zero state on the counting stream. -/
theorem startNewRound_distinct_indices_witness :
    3 ≤ (zeroGame countingRand).sushiItems.length ∧
    startNewRound 1 (zeroGame countingRand) = .ok round1 ∧
    round1.options.Nodup :=
  ⟨by decide, rfl,
    ((startNewRound_distinct_indices (zeroGame countingRand) (by decide)).1 1 round1 rfl).2
      rfl⟩

/-- C9. On a non-empty vocabulary of `N` entries and a stream of draws in which
every index of `[0, N)` keeps occurring, `startNewRound` returns for some bound
on the loop iterations exactly when `N >= 3`; for `N = 1` and `N = 2` it returns
for no bound and no stream of draws. -/
theorem startNewRound_terminates_iff (g : Game) (h1 : 1 ≤ g.sushiItems.length) :
    (Fair g.rand g.sushiItems.length →
      ((∃ fuel g', startNewRound fuel g = .ok g') ↔ 3 ≤ g.sushiItems.length)) ∧
    (g.sushiItems.length < 3 → ∀ fuel, startNewRound fuel g = .error .fuel) := by
  have hdiv : g.sushiItems.length < 3 → ∀ fuel, startNewRound fuel g = .error .fuel :=
    fun h3 fuel => startNewRound_diverges g h1 h3 fuel
  refine ⟨fun hfair => ⟨?_, fun h3 => startNewRound_terminates g h3 hfair⟩, hdiv⟩
  rintro ⟨fuel, g', h⟩
  by_contra h3
  rw [hdiv (by omega) fuel] at h
  exact absurd h (by simp)

/-- C9 on the counting stream: the 18-entry vocabulary terminates, the
vocabularies cut down to one and to two entries do not. -/
theorem startNewRound_terminates_iff_witness :
    (1 ≤ (zeroGame countingRand).sushiItems.length ∧
      Fair (zeroGame countingRand).rand (zeroGame countingRand).sushiItems.length ∧
      ∃ fuel g', startNewRound fuel (zeroGame countingRand) = .ok g') ∧
    (∀ fuel, startNewRound fuel (smallGame 2 countingRand) = .error .fuel) ∧
    (∀ fuel, startNewRound fuel (smallGame 1 countingRand) = .error .fuel) :=
  ⟨⟨by decide, fair_counting 18 0 (by decide),
     ((startNewRound_terminates_iff (zeroGame countingRand) (by decide)).1
        (fair_counting 18 0 (by decide))).2 (by decide)⟩,
   (startNewRound_terminates_iff (smallGame 2 countingRand) (by decide)).2 (by decide),
   (startNewRound_terminates_iff (smallGame 1 countingRand) (by decide)).2 (by decide)⟩

/-! ## Claims on `Update` -/

/-- C3 (amended). In a playing state whose score is below the largest `int`, a
just-pressed click inside the card at `correctIndex` (one of the three cards)
makes `Update` run `startNewRound` on the state with `score + 1` and
`bestScore = max bestScore (score + 1)`: every result has `gameOver = false`,
the score raised by one, that best score and a valid new round, and on a fair
stream over at least three entries there is a result. -/
theorem Update_correct_click (g : Game) (inp : Input)
    (hplay : g.gameOver = false) (hpress : inp.leftJustPressed = true)
    (hc0 : 0 ≤ g.correctIndex) (hc3 : g.correctIndex < 3)
    (hx1 : 30 + 200 * g.correctIndex ≤ inp.cursorX)
    (hx2 : inp.cursorX < 210 + 200 * g.correctIndex)
    (hy1 : 330 ≤ inp.cursorY) (hy2 : inp.cursorY < 410)
    (hlo : minInt ≤ g.score) (hhi : g.score < maxInt) :
    (∀ fuel, Update fuel g inp =
      startNewRound fuel
        { g with score := g.score + 1, bestScore := max g.bestScore (g.score + 1) }) ∧
    (∀ fuel g', Update fuel g inp = .ok g' →
      g'.gameOver = false ∧ g'.score = g.score + 1 ∧
      g'.bestScore = max g.bestScore (g.score + 1) ∧ ValidRound g') ∧
    (3 ≤ g.sushiItems.length → Fair g.rand g.sushiItems.length →
      ∃ fuel g', Update fuel g inp = .ok g') := by
  have hw : wrapInt (g.score + 1) = g.score + 1 :=
    wrapInt_of_inRange _ (by omega) (by omega)
  obtain ⟨c, hc⟩ : ∃ c : Nat, g.correctIndex = (c : Int) :=
    ⟨g.correctIndex.toNat, (Int.toNat_of_nonneg hc0).symm⟩
  have hclt : c < 3 := by omega
  have hU : ∀ fuel, Update fuel g inp = correctAnswer fuel g := by
    intro fuel
    unfold Update
    simp only [hplay, hpress, if_true, Bool.false_eq_true, if_false]
    rw [clickCards_hit fuel g _ _ c hclt (by rw [← hc]; exact hx1) (by rw [← hc]; exact hx2)
      hy1 hy2]
    simp [hc]
  have hE : ∀ fuel, Update fuel g inp =
      startNewRound fuel
        { g with score := g.score + 1, bestScore := max g.bestScore (g.score + 1) } := by
    intro fuel
    rw [hU]
    unfold correctAnswer
    simp only [hw]
    by_cases hlt : g.score + 1 > g.bestScore
    · simp only [hlt, if_true, max_eq_right (le_of_lt hlt)]
    · simp only [hlt, if_false, max_eq_left (not_lt.mp hlt)]
  refine ⟨hE, ?_, ?_⟩
  · intro fuel g' h
    rw [hU] at h
    obtain ⟨_, hg, hs, hb, hv⟩ := correctAnswer_bestScore fuel g g' h
    rw [hw] at hs hb
    exact ⟨by rw [hg, hplay], hs, hb, hv⟩
  · intro h3 hfair
    obtain ⟨fuel, g', h⟩ := startNewRound_terminates
      { g with score := g.score + 1, bestScore := max g.bestScore (g.score + 1) } h3 hfair
    exact ⟨fuel, g', by rw [hE]; exact h⟩

/-- C3 (amended) at `round1`: clicking card 1, the correct one, at (230, 330). -/
theorem Update_correct_click_witness :
    round1.gameOver = false ∧ round1.correctIndex = 1 ∧ round1.score = 0 ∧
    round1.bestScore = 0 ∧
    ∃ g', Update 1 round1 (click 230 330) = .ok g' ∧
      g'.gameOver = false ∧ g'.score = 1 ∧ g'.bestScore = 1 ∧ ValidRound g' :=
  ⟨rfl, rfl, rfl, rfl, _, rfl,
    (Update_correct_click round1 (click 230 330) rfl rfl (by decide) (by decide)
      (by decide) (by decide) (by decide) (by decide) (by decide) (by decide)).2.1 1 _ rfl⟩

/-- C3 as stated fails at the largest `int`: `g.score++` wraps, so the score
after a correct click is the smallest `int` and not the old score plus one. -/
theorem Update_correct_click_overflow :
    overflowGame.gameOver = false ∧ overflowGame.correctIndex = 1 ∧
    inCard 1 230 330 = true ∧
    ∃ g', Update 1 overflowGame (click 230 330) = .ok g' ∧
      g'.score = -9223372036854775808 ∧ overflowGame.score = 9223372036854775807 ∧
      g'.score ≠ overflowGame.score + 1 :=
  ⟨rfl, rfl, by decide, _, rfl, by decide, by decide, by decide⟩

/-- C4 (amended). In a playing state a just-pressed click inside a card other
than the one at `correctIndex` makes `Update` return with `gameOver = true`,
the score as it was and the best score as it was, also when the score exceeds
the best score. -/
theorem Update_wrong_click_scores (g : Game) (inp : Input) (i : Nat)
    (hplay : g.gameOver = false) (hpress : inp.leftJustPressed = true)
    (hi : i < 3) (hne : (i : Int) ≠ g.correctIndex)
    (hx1 : 30 + 200 * (i : Int) ≤ inp.cursorX) (hx2 : inp.cursorX < 210 + 200 * (i : Int))
    (hy1 : 330 ≤ inp.cursorY) (hy2 : inp.cursorY < 410) (fuel : Nat) :
    ∃ g', Update fuel g inp = .ok g' ∧
      g'.gameOver = true ∧ g'.score = g.score ∧ g'.bestScore = g.bestScore := by
  refine ⟨{ g with gameOver := true }, ?_, rfl, rfl, rfl⟩
  unfold Update
  simp only [hplay, hpress, if_true, Bool.false_eq_true, if_false]
  rw [clickCards_hit fuel g _ _ i hi hx1 hx2 hy1 hy2]
  simp [hne]

/-- C4 (amended) from `score = 5`, `bestScore = 3`: the wrong card 0 is clicked
at (30, 330) and the best score stays 3. -/
theorem Update_wrong_click_scores_witness :
    game53.gameOver = false ∧ game53.score = 5 ∧ game53.bestScore = 3 ∧
    ((0 : Nat) : Int) ≠ game53.correctIndex ∧
    ∃ g', Update 0 game53 (click 30 330) = .ok g' ∧
      g'.gameOver = true ∧ g'.score = 5 ∧ g'.bestScore = 3 :=
  ⟨rfl, rfl, rfl, by decide,
    Update_wrong_click_scores game53 (click 30 330) 0 rfl rfl (by decide) (by decide)
      (by decide) (by decide) (by decide) (by decide) 0⟩

/-- C4 as stated fails from `score = 5`, `bestScore = 3`: after the wrong-answer
click the best score is 3, not 5. -/
theorem Update_wrong_click_keeps_bestScore :
    game53.gameOver = false ∧ game53.score = 5 ∧ game53.bestScore = 3 ∧
    inCard 0 30 330 = true ∧ ((0 : Nat) : Int) ≠ game53.correctIndex ∧
    ∃ g', Update 0 game53 (click 30 330) = .ok g' ∧
      g'.gameOver = true ∧ g'.score = 5 ∧ g'.bestScore ≠ 5 :=
  ⟨rfl, rfl, rfl, by decide, by decide, _, rfl, rfl, rfl, by decide⟩

/-- C5. In a playing state a just-pressed click inside a card `i` other than the
one at `correctIndex` makes `Update` return the same state with `gameOver = true`:
score, best score, item, options, correct index and random source are untouched. -/
theorem Update_wrong_click_frame (g : Game) (inp : Input) (i : Nat)
    (hplay : g.gameOver = false) (hpress : inp.leftJustPressed = true)
    (hi : i < 3) (hne : (i : Int) ≠ g.correctIndex)
    (hx1 : 30 + 200 * (i : Int) ≤ inp.cursorX) (hx2 : inp.cursorX < 210 + 200 * (i : Int))
    (hy1 : 330 ≤ inp.cursorY) (hy2 : inp.cursorY < 410) (fuel : Nat) :
    Update fuel g inp =
      .ok { sushiItems := g.sushiItems, currentItem := g.currentItem,
            options := g.options, correctIndex := g.correctIndex, score := g.score,
            bestScore := g.bestScore, gameOver := true, rand := g.rand } := by
  unfold Update
  simp only [hplay, hpress, if_true, Bool.false_eq_true, if_false]
  rw [clickCards_hit fuel g _ _ i hi hx1 hx2 hy1 hy2]
  simp [hne]

/-- C5 at `round1`: the wrong card 2 is clicked at (609, 409). -/
theorem Update_wrong_click_frame_witness :
    round1.gameOver = false ∧ ((2 : Nat) : Int) ≠ round1.correctIndex ∧
    Update 0 round1 (click 609 409) =
      .ok { sushiItems := vocabulary, currentItem := ⟨"鮪", "Tuna"⟩,
            options := ["Yellowtail", "Tuna", "Sea Bream"], correctIndex := 1,
            score := 0, bestScore := 0, gameOver := true, rand := ⟨fun i => i, 4⟩ } :=
  ⟨rfl, by decide,
    Update_wrong_click_frame round1 (click 609 409) 2 rfl rfl (by decide) (by decide)
      (by decide) (by decide) (by decide) (by decide) 0⟩

/-- C6. In a game-over state with the space key down, whatever the mouse does,
`Update` runs `startNewRound` on the state with `gameOver = false` and
`score = 0`: every result has `gameOver = false`, `score = 0`, the best score as
it was and a valid round, and on a fair stream over at least three entries there
is a result. -/
theorem Update_restart (g : Game) (inp : Input)
    (hover : g.gameOver = true) (hspace : inp.spaceDown = true) :
    (∀ fuel, Update fuel g inp =
      startNewRound fuel { g with gameOver := false, score := 0 }) ∧
    (∀ fuel g', Update fuel g inp = .ok g' →
      g'.gameOver = false ∧ g'.score = 0 ∧ g'.bestScore = g.bestScore ∧
      g'.options.length = 3 ∧
      ∃ (c i0 i1 i2 : Nat) (a0 a1 a2 : SushiItem),
        c < 3 ∧ g'.correctIndex = (c : Int) ∧
        g.sushiItems[i0]? = some a0 ∧ g.sushiItems[i1]? = some a1 ∧
        g.sushiItems[i2]? = some a2 ∧
        i0 ≠ i1 ∧ i0 ≠ i2 ∧ i1 ≠ i2 ∧
        g'.options = [a0.English, a1.English, a2.English] ∧
        [a0, a1, a2][c]? = some g'.currentItem ∧
        g'.options[c]? = some g'.currentItem.English) ∧
    (3 ≤ g.sushiItems.length → Fair g.rand g.sushiItems.length →
      ∃ fuel g', Update fuel g inp = .ok g') := by
  have hE : ∀ fuel, Update fuel g inp =
      startNewRound fuel { g with gameOver := false, score := 0 } := by
    intro fuel
    unfold Update
    simp only [hover, hspace, if_true]
  refine ⟨hE, ?_, ?_⟩
  · intro fuel g' h
    rw [hE] at h
    obtain ⟨⟨c, i0, i1, i2, a0, a1, a2, hc, hci, h0, h1, h2, h01, h02, h12, hopt, hcur⟩,
      hitems, hs, hb, hg, _⟩ := startNewRound_ok _ _ _ h
    rw [hitems] at h0 h1 h2
    refine ⟨hg, hs, hb, by rw [hopt]; rfl,
      c, i0, i1, i2, a0, a1, a2, hc, hci, h0, h1, h2, h01, h02, h12, hopt, hcur, ?_⟩
    rw [hopt]
    interval_cases c <;>
      simp only [List.getElem?_cons_zero, List.getElem?_cons_succ, Option.some.injEq]
        at hcur ⊢ <;>
      rw [hcur]
  · intro h3 hfair
    obtain ⟨fuel, g', h⟩ := startNewRound_terminates
      { g with gameOver := false, score := 0 } h3 hfair
    exact ⟨fuel, g', by rw [hE]; exact h⟩

/-- C6 at `lostGame` (score 2, best score 4) with space down. -/
theorem Update_restart_witness :
    lostGame.gameOver = true ∧ lostGame.score = 2 ∧ lostGame.bestScore = 4 ∧
    ∃ g', Update 1 lostGame spaceFrame = .ok g' ∧
      g'.gameOver = false ∧ g'.score = 0 ∧ g'.bestScore = 4 ∧ g'.options.length = 3 :=
  ⟨rfl, rfl, rfl, _, rfl,
    ((Update_restart lostGame spaceFrame rfl rfl).2.1 1 _ rfl).1,
    ((Update_restart lostGame spaceFrame rfl rfl).2.1 1 _ rfl).2.1,
    ((Update_restart lostGame spaceFrame rfl rfl).2.1 1 _ rfl).2.2.1,
    ((Update_restart lostGame spaceFrame rfl rfl).2.1 1 _ rfl).2.2.2.1⟩

/-- C7. `Update` returns the state it was given when the game is over and the
space key is not down, and when the game is running and either the left button
was not just pressed or the pointer lies in none of the three card rectangles. -/
theorem Update_noop (g : Game) (inp : Input) (fuel : Nat)
    (h : (g.gameOver = true ∧ inp.spaceDown = false) ∨
      (g.gameOver = false ∧
        (inp.leftJustPressed = false ∨
          ∀ i : Nat, i < 3 →
            ¬ (30 + 200 * (i : Int) ≤ inp.cursorX ∧ inp.cursorX < 210 + 200 * (i : Int) ∧
                330 ≤ inp.cursorY ∧ inp.cursorY < 410)))) :
    Update fuel g inp = .ok g := by
  unfold Update
  rcases h with ⟨hover, hspace⟩ | ⟨hplay, hno | hout⟩
  · simp [hover, hspace]
  · simp [hplay, hno]
  · simp only [hplay, Bool.false_eq_true, if_false]
    by_cases hp : inp.leftJustPressed = true
    · simp only [hp, if_true]
      exact clickCards_miss fuel g _ _ hout
    · simp [hp]

/-- C7 at `round1` with a click at (10, 10), and at `lostGame` with a click on a
card while space is up. -/
theorem Update_noop_witness :
    Update 0 round1 (click 10 10) = .ok round1 ∧
    Update 0 lostGame (click 230 330) = .ok lostGame :=
  ⟨Update_noop round1 (click 10 10) 0
      (Or.inr ⟨rfl, Or.inr (by
        intro i hi
        show ¬ (30 + 200 * (i : Int) ≤ 10 ∧ _)
        omega)⟩),
    Update_noop lostGame (click 230 330) 0 (Or.inl ⟨rfl, rfl⟩)⟩

/-! ## Claims on sequences of frames -/

/-- C8. The best score after one `Update` is at least the best score before it,
for every state and input, and so it is after every sequence of `Update` calls. -/
theorem bestScore_monotone :
    (∀ (fuel : Nat) (g g' : Game) (inp : Input),
      Update fuel g inp = .ok g' → g.bestScore ≤ g'.bestScore) ∧
    (∀ (frames : List (Nat × Input)) (g g' : Game),
      runUpdates g frames = .ok g' → g.bestScore ≤ g'.bestScore) :=
  ⟨Update_bestScore_le, runUpdates_bestScore_le⟩

/-- C8 on a run from `round1`: a correct answer, a wrong answer and a restart
leave the best score at 1. -/
theorem bestScore_monotone_witness :
    runUpdates round1 sampleFrames = .ok afterSample ∧
    round1.bestScore = 0 ∧ afterSample.bestScore = 1 ∧
    round1.bestScore ≤ afterSample.bestScore :=
  ⟨rfl, rfl, rfl, bestScore_monotone.2 sampleFrames round1 afterSample rfl⟩

/-- C10 (amended). The state built by `NewGame` has `score = 0`, `bestScore = 0`,
`gameOver = false` and a valid first round; in every state reached from it by a
sequence of `Update` calls, `score <= bestScore` and `0 <= bestScore`; when the
sequence has at most `maxInt` calls, also `0 <= score`. -/
theorem reachable_score_le_bestScore (fuel : Nat) (r : Rand) (g0 g' : Game)
    (frames : List (Nat × Input))
    (hnew : NewGame fuel r = .ok g0) (hrun : runUpdates g0 frames = .ok g') :
    (g0.score = 0 ∧ g0.bestScore = 0 ∧ g0.gameOver = false ∧ ValidRound g0) ∧
    g'.score ≤ g'.bestScore ∧ 0 ≤ g'.bestScore ∧
      ((frames.length : Int) ≤ maxInt → 0 ≤ g'.score) := by
  obtain ⟨hv, _, hs, hb, hg, _⟩ := startNewRound_ok _ _ _ hnew
  have hs0 : g0.score = 0 := hs
  have hb0 : g0.bestScore = 0 := hb
  obtain ⟨_, h2, h3⟩ := runUpdates_score_le_bestScore frames g0 g' hrun
    ⟨by rw [hs0]; simp [minInt, intBits], by rw [hs0, hb0], by rw [hb0]⟩
  refine ⟨⟨hs0, hb0, hg, hv⟩, h2, h3, fun hlen => ?_⟩
  exact (runUpdates_score_nonneg frames g0 g' hrun (by rw [hs0]) (by rw [hs0]; omega)).1

/-- C10 (amended) on the run from the counting stream: a correct answer, a miss,
a wrong answer and a restart. -/
theorem reachable_score_le_bestScore_witness :
    NewGame 1 countingRand = .ok round1 ∧
    runUpdates round1 sampleFrames = .ok afterSample ∧
    afterSample.score ≤ afterSample.bestScore ∧ 0 ≤ afterSample.bestScore ∧
    0 ≤ afterSample.score :=
  ⟨rfl, rfl,
    (reachable_score_le_bestScore 1 countingRand round1 afterSample sampleFrames rfl rfl).2.1,
    (reachable_score_le_bestScore 1 countingRand round1 afterSample sampleFrames rfl
      rfl).2.2.1,
    (reachable_score_le_bestScore 1 countingRand round1 afterSample sampleFrames rfl
      rfl).2.2.2 (by decide)⟩

/-- C10 as stated fails: from the state `NewGame` builds on the periodic stream,
`2^63` frames with a correct answer each end in a state with a negative score. -/
theorem reachable_negative_score :
    ∃ g0 g', NewGame 1 ⟨cycleDraws, 0⟩ = .ok g0 ∧
      runUpdates g0 (List.replicate (2 ^ 63) (1, click 30 330)) = .ok g' ∧
      g'.score < 0 ∧ ¬ (0 ≤ g'.score ∧ g'.score ≤ g'.bestScore) := by
  have hn : (2 : Nat) ^ 63 = 9223372036854775807 + 1 := by norm_num
  rw [hn]
  refine ⟨cycleRound 1 0 0, cycleRound (1 + 9223372036854775807 + 1) minInt maxInt,
    ?_, ?_, ?_, ?_⟩
  · exact startNewRound_cycle 0 0 0 false _ _ _
  · exact runUpdates_cycle_wrap 9223372036854775807 1 0 (le_refl _)
      (by simp only [maxInt, intBits]; norm_num)
  · simp only [cycleRound, minInt, intBits]; norm_num
  · simp only [cycleRound, minInt, intBits]; norm_num

end SushiQuiz
